import Mathlib

/-!
Verification of the `zip` operator of `rx/operators/observable/zip.py`.

The file gives a shallow embedding of the two subscription state machines of
that module:

* the N-ary path (`zip.subscribe` with its inner `next`, `done` and `send`
  callbacks), modelled as an explicit state machine `RxZip.step` driven by a
  trace of per-source events;
* the list fast path (`_zip_with_list.subscribe` with its inner `send`
  callback), modelled as `RxZipList.lstep`.

Python mutable state (per-source queues, done flags, the list cursor) becomes
explicit state records; the calls the code makes on the downstream observer
(`observer.send`, `observer.throw`, `observer.close`) are recorded in order in
an `output` field.  A combiner that may raise is modelled as a function into
`Except`.
-/

namespace RxZip

/-- A call made on the downstream observer: `observer.send v`,
`observer.throw e` or `observer.close ()`. -/
inductive DownEv (β ε : Type) where
  | send (v : β)
  | throw (e : ε)
  | close
deriving DecidableEq, Repr

/-- The value carried by a `send` notification, if any. -/
def DownEv.value? {β ε : Type} : DownEv β ε → Option β
  | .send v => some v
  | _ => none

/-- The values of the `send` notifications of an observer-call list, in order. -/
def outputSends {β ε : Type} (out : List (DownEv β ε)) : List β :=
  out.filterMap DownEv.value?

/-- True when the observer call is terminal (`throw` or `close`). -/
def DownEv.isTerm {β ε : Type} : DownEv β ε → Bool
  | .send _ => false
  | _ => true

/-- True when the call list contains a terminal call (`throw` or `close`). -/
def hasTerminal {β ε : Type} (out : List (DownEv β ε)) : Bool :=
  out.any DownEv.isTerm

/-- Modelled from the spec: the downstream observer abstraction (the
observable/observer notification contract of the reactive runtime, listed by
the spec as an external collaborator and not part of `src/`) delivers
notifications to the subscriber until the first terminal one and ignores every
call made after a `throw` or a `close`.  Given the raw calls the zip code makes
on the observer, this computes the notifications the subscriber receives. -/
def deliver {β ε : Type} : List (DownEv β ε) → List (DownEv β ε)
  | [] => []
  | .send v :: rest => .send v :: deliver rest
  | .throw e :: _ => [.throw e]
  | .close :: _ => [.close]

/-- An event delivered to the N-ary zip subscription by source `i`:
the `send`, `throw` and `close` upstream notifications wired by
`source.subscribe_(send, observer.throw, lambda: done(i), scheduler)`. -/
inductive Ev (α ε : Type) where
  | send (i : Nat) (v : α)
  | close (i : Nat)
  | throw (i : Nat) (e : ε)
deriving DecidableEq, Repr

/-- The index of the source an event originates from. -/
def Ev.idx {α ε : Type} : Ev α ε → Nat
  | .send i _ => i
  | .close i => i
  | .throw i _ => i

/-- The per-subscription state of the N-ary path: the `queues` list, the
`is_done` list and the calls made on the downstream observer so far. -/
structure ZipState (α β ε : Type) where
  queues : List (List α)
  is_done : List Bool
  output : List (DownEv β ε)
deriving DecidableEq, Repr

/-- Models `all([len(q) for q in queues])`: every queue is non-empty. -/
def allFull {α : Type} (queues : List (List α)) : Bool :=
  queues.all fun q => !q.isEmpty

/-- Models `all([x for j, x in enumerate(is_done) if j != i])`: every done
flag other than the one of source `i` is set. -/
def othersDone (i : Nat) (is_done : List Bool) : Bool :=
  (is_done.enum.filter fun p => !(p.1 == i)).all fun p => p.2

/-- Models `queues[i].append(x)`. -/
def enqueue {α : Type} (queues : List (List α)) (i : Nat) (x : α) : List (List α) :=
  queues.set i (queues.getD i [] ++ [x])

/-- The inner `next(i)` callback of `subscribe`: when every queue is
non-empty, pop the head of each queue, invoke the result mapper on the popped
values and either forward the raised exception (`observer.throw`) or emit the
result (`observer.send`); otherwise, when every other source is already done,
call `observer.close`. -/
def next {α β ε : Type} (rm : List α → Except ε β) (i : Nat) (st : ZipState α β ε) :
    ZipState α β ε :=
  if allFull st.queues then
    let queued_values := st.queues.filterMap List.head?
    let queues := st.queues.map List.tail
    match rm queued_values with
    | .error ex => { st with queues := queues, output := st.output ++ [DownEv.throw ex] }
    | .ok res => { st with queues := queues, output := st.output ++ [DownEv.send res] }
  else if othersDone i st.is_done then
    { st with output := st.output ++ [DownEv.close] }
  else
    st

/-- The inner `done(i)` callback of `subscribe`: set the done flag of source
`i` and close downstream when every flag is set. -/
def done {α β ε : Type} (i : Nat) (st : ZipState α β ε) : ZipState α β ε :=
  let is_done := st.is_done.set i true
  if is_done.all (fun b => b) then
    { st with is_done := is_done, output := st.output ++ [DownEv.close] }
  else
    { st with is_done := is_done }

/-- The inner `send(x)` callback wired for source `i`: append `x` to
`queues[i]` and run `next(i)`. -/
def send {α β ε : Type} (rm : List α → Except ε β) (i : Nat) (x : α) (st : ZipState α β ε) :
    ZipState α β ε :=
  next rm i { st with queues := enqueue st.queues i x }

/-- One notification arriving at the subscription: values go to `send`,
completions to `done`, and source errors are forwarded by `observer.throw`
(the error callback wired in `subscribe_`). -/
def step {α β ε : Type} (rm : List α → Except ε β) (st : ZipState α β ε) (e : Ev α ε) :
    ZipState α β ε :=
  match e with
  | .send i x => send rm i x st
  | .close i => done i st
  | .throw _ ex => { st with output := st.output ++ [DownEv.throw ex] }

/-- The state set up by `subscribe` for `n` sources: `n` empty queues and `n`
unset done flags, no observer call made yet. -/
def initState (α β ε : Type) (n : Nat) : ZipState α β ε :=
  { queues := List.replicate n [], is_done := List.replicate n false, output := [] }

/-- The state after the subscription processed the trace `tr` of upstream
notifications, with `n` sources and resolved result mapper `rm`. -/
def run {α β ε : Type} (rm : List α → Except ε β) (n : Nat) (tr : List (Ev α ε)) :
    ZipState α β ε :=
  tr.foldl (step rm) (initState α β ε n)

/-- The upstream trace a source `i` emitting exactly the values `s` and then
completing normally contributes: its `send` notifications in order, then one
completion. -/
def events {α ε : Type} (i : Nat) (s : List α) : List (Ev α ε) :=
  s.map (Ev.send i) ++ [Ev.close i]

/-- The subtrace of `tr` originating from source `i`. -/
def ofSource {α ε : Type} (i : Nat) (tr : List (Ev α ε)) : List (Ev α ε) :=
  tr.filter fun e => e.idx == i

/-- `tr` is a possible interleaving of the notifications of
`srcs.length` sources in which source `i` emits exactly the values `srcs[i]`
in order and then completes normally (no source errors). -/
def IsRun {α ε : Type} (srcs : List (List α)) (tr : List (Ev α ε)) : Prop :=
  (∀ e ∈ tr, e.idx < srcs.length) ∧
    ∀ i, i < srcs.length → ofSource i tr = events i (srcs.getD i [])

instance {α ε : Type} [DecidableEq α] [DecidableEq ε] (srcs : List (List α))
    (tr : List (Ev α ε)) : Decidable (IsRun srcs tr) := by
  unfold IsRun
  infer_instance

/-- The value sent by event `e`, when `e` is a value notification of
source `i`. -/
def sentTo {α ε : Type} (i : Nat) : Ev α ε → Option α
  | .send j v => if j = i then some v else none
  | _ => none

/-- The values delivered by source `i` within the trace `p`, in order. -/
def sent {α ε : Type} (i : Nat) (p : List (Ev α ε)) : List α :=
  p.filterMap (sentTo i)

/-- The minimum of the lengths of the source value sequences (for at least
one source). -/
def minLen {α : Type} : List (List α) → Nat
  | [] => 0
  | [s] => s.length
  | s :: rest => min s.length (minLen rest)

/-- The tuple of values at index `k`, one from each of the `n` sources, in
source order. -/
def tupleAt {α ε : Type} (p : List (Ev α ε)) (n k : Nat) : List α :=
  (List.range n).filterMap fun j => (sent j p)[k]?

end RxZip

namespace RxZipList

open RxZip (DownEv)

/-- An event delivered to the `_zip_with_list` subscription by the single
asynchronous source `first`. -/
inductive LEv (α ε : Type) where
  | send (v : α)
  | close
  | throw (e : ε)
deriving DecidableEq, Repr

/-- Exceptions that can reach the downstream observer of the list path: an
exception raised by the user-supplied `result_mapper`, or the `TypeError`
Python raises at `result_mapper(left, right)` when `result_mapper` is `None`
(the `zip` entry point dispatches to `_zip_with_list` before substituting the
default mapper, so an omitted mapper arrives here as `None`). -/
inductive PyCallErr (ε : Type) where
  | user (e : ε)
  | noneNotCallable
deriving DecidableEq, Repr

/-- The per-subscription state of the list path: the `index` cursor into the
list operand and the calls made on the downstream observer so far. -/
structure LState (α β ε : Type) where
  index : Nat
  output : List (DownEv β (PyCallErr ε))
deriving DecidableEq, Repr

/-- Models the call `result_mapper(left, right)` where `result_mapper` may be
`None`: calling `None` raises a `TypeError`, a user mapper may raise its own
exception. -/
def callMapper {α β ε : Type} (rm : Option (α → α → Except ε β)) (l r : α) :
    Except (PyCallErr ε) β :=
  match rm with
  | none => .error PyCallErr.noneNotCallable
  | some f =>
    match f l r with
    | .error e => .error (PyCallErr.user e)
    | .ok v => .ok v

/-- The inner `send(left)` callback of `_zip_with_list.subscribe`: while
`index < len(second)` take `right = second[index]`, advance the cursor and
either forward the exception raised by the mapper or emit the result;
once the list is exhausted, call `observer.close`. -/
def send {α β ε : Type} (rm : Option (α → α → Except ε β)) (second : List α) (left : α)
    (st : LState α β ε) : LState α β ε :=
  match second.get? st.index with
  | some right =>
    match callMapper rm left right with
    | .error ex => { index := st.index + 1, output := st.output ++ [DownEv.throw ex] }
    | .ok result => { index := st.index + 1, output := st.output ++ [DownEv.send result] }
  | none => { st with output := st.output ++ [DownEv.close] }

/-- One notification of the asynchronous source: values go to `send`, the
error and completion callbacks are `observer.throw` and `observer.close`
forwarded unchanged. -/
def lstep {α β ε : Type} (rm : Option (α → α → Except ε β)) (second : List α)
    (st : LState α β ε) (e : LEv α (PyCallErr ε)) : LState α β ε :=
  match e with
  | .send x => send rm second x st
  | .close => { st with output := st.output ++ [DownEv.close] }
  | .throw ex => { st with output := st.output ++ [DownEv.throw ex] }

/-- The state after the list-path subscription processed the trace `tr`. -/
def run {α β ε : Type} (rm : Option (α → α → Except ε β)) (second : List α)
    (tr : List (LEv α (PyCallErr ε))) : LState α β ε :=
  tr.foldl (lstep rm second) { index := 0, output := [] }

end RxZipList

/-- Concrete Python exceptions used to instantiate the model at specific
inputs. -/
inductive PyErr where
  | typeErrorListArity
  | typeErrorNotIterable
  | boom (n : Nat)
deriving DecidableEq, Repr

/-- Models the default result mapper of the N-ary path at integer values:
line 35 (`result_mapper = result_mapper or list`) makes the Python builtin
`list` the mapper when none is supplied, and line 46 calls it with the popped
values as separate positional arguments, `result_mapper(*queued_values)`.
`list()` returns `[]`; `list(v)` with a single integer raises
`TypeError: 'int' object is not iterable`; `list(v1, v2, ...)` with two or
more arguments raises `TypeError: list expected at most 1 argument`. -/
def pyListStar : List Nat → Except PyErr (List Nat)
  | [] => Except.ok []
  | [_] => Except.error PyErr.typeErrorNotIterable
  | _ => Except.error PyErr.typeErrorListArity

namespace RxZip

theorem deliver_append_of_no_terminal {β ε : Type} (A B : List (DownEv β ε))
    (h : hasTerminal A = false) : deliver (A ++ B) = A ++ deliver B := by
  induction A with
  | nil => rfl
  | cons e rest ih =>
    cases e with
    | send v =>
      have hrest : hasTerminal rest = false := by
        simpa [hasTerminal, DownEv.isTerm] using h
      simp [deliver, ih hrest]
    | throw ex => simp [hasTerminal, DownEv.isTerm] at h
    | close => simp [hasTerminal, DownEv.isTerm] at h

theorem deliver_append_of_terminal {β ε : Type} (A B : List (DownEv β ε))
    (h : hasTerminal A = true) : deliver (A ++ B) = deliver A := by
  induction A with
  | nil => simp [hasTerminal] at h
  | cons e rest ih =>
    cases e with
    | send v =>
      have hrest : hasTerminal rest = true := by
        simpa [hasTerminal, DownEv.isTerm] using h
      simp [deliver, ih hrest]
    | throw ex => simp [deliver]
    | close => simp [deliver]

theorem hasTerminal_map_send {β ε : Type} (l : List β) :
    hasTerminal ((l.map DownEv.send : List (DownEv β ε))) = false := by
  induction l with
  | nil => rfl
  | cons v rest ih =>
    simp only [List.map_cons, hasTerminal, List.any_cons, DownEv.isTerm, Bool.false_or]
    exact ih

theorem deliver_map_send {β ε : Type} (l : List β) :
    deliver ((l.map DownEv.send : List (DownEv β ε))) = l.map DownEv.send := by
  induction l with
  | nil => rfl
  | cons v rest ih => simp [deliver, ih]

theorem outputSends_map_send {β ε : Type} (l : List β) :
    outputSends ((l.map DownEv.send : List (DownEv β ε))) = l := by
  induction l with
  | nil => rfl
  | cons v rest ih => simpa [outputSends, DownEv.value?] using ih

theorem next_output_extends {α β ε : Type} (rm : List α → Except ε β) (i : Nat)
    (st : ZipState α β ε) : ∃ d, (next rm i st).output = st.output ++ d := by
  unfold next
  by_cases h : allFull st.queues = true
  · simp only [h, if_true]
    cases hrm : rm (st.queues.filterMap List.head?) with
    | error ex => exact ⟨[DownEv.throw ex], rfl⟩
    | ok res => exact ⟨[DownEv.send res], rfl⟩
  · simp only [h, if_false, Bool.false_eq_true]
    by_cases h2 : othersDone i st.is_done = true
    · simp only [h2, if_true]
      exact ⟨[DownEv.close], rfl⟩
    · simp only [h2, if_false, Bool.false_eq_true]
      exact ⟨[], (List.append_nil _).symm⟩

theorem step_output_extends {α β ε : Type} (rm : List α → Except ε β)
    (st : ZipState α β ε) (e : Ev α ε) :
    ∃ d, (step rm st e).output = st.output ++ d := by
  cases e with
  | send i x => exact next_output_extends rm i _
  | close i =>
    unfold step done
    by_cases h : (st.is_done.set i true).all (fun b => b) = true
    · simp only [h, if_true]
      exact ⟨[DownEv.close], rfl⟩
    · simp only [h, if_false, Bool.false_eq_true]
      exact ⟨[], (List.append_nil _).symm⟩
  | throw i ex => exact ⟨[DownEv.throw ex], rfl⟩

theorem run_output_extends {α β ε : Type} (rm : List α → Except ε β)
    (evs : List (Ev α ε)) : ∀ st : ZipState α β ε,
    ∃ d, (evs.foldl (step rm) st).output = st.output ++ d := by
  induction evs with
  | nil => exact fun st => ⟨[], (List.append_nil _).symm⟩
  | cons e evs ih =>
    intro st
    obtain ⟨d1, h1⟩ := step_output_extends rm st e
    obtain ⟨d2, h2⟩ := ih (step rm st e)
    exact ⟨d1 ++ d2, by rw [List.foldl_cons, h2, h1, List.append_assoc]⟩

end RxZip

namespace RxZip

theorem step_send_error {α β ε : Type} (rm : List α → Except ε β) (i : Nat) (v : α)
    (st : ZipState α β ε) (e : ε)
    (hfull : allFull (enqueue st.queues i v) = true)
    (herr : rm ((enqueue st.queues i v).filterMap List.head?) = Except.error e) :
    step rm st (Ev.send i v)
      = { st with queues := (enqueue st.queues i v).map List.tail,
                  output := st.output ++ [DownEv.throw e] } := by
  obtain ⟨qs, ds, out⟩ := st
  simp only [step, send, next, enqueue] at *
  simp only [List.getD_eq_getElem?_getD] at hfull herr ⊢
  simp [hfull, herr]

theorem step_send_ok {α β ε : Type} (rm : List α → Except ε β) (i : Nat) (v : α)
    (st : ZipState α β ε) (res : β)
    (hfull : allFull (enqueue st.queues i v) = true)
    (hok : rm ((enqueue st.queues i v).filterMap List.head?) = Except.ok res) :
    step rm st (Ev.send i v)
      = { st with queues := (enqueue st.queues i v).map List.tail,
                  output := st.output ++ [DownEv.send res] } := by
  obtain ⟨qs, ds, out⟩ := st
  simp only [step, send, next, enqueue] at *
  simp only [List.getD_eq_getElem?_getD] at hfull hok ⊢
  simp [hfull, hok]

theorem step_send_notfull {α β ε : Type} (rm : List α → Except ε β) (i : Nat) (v : α)
    (st : ZipState α β ε)
    (hfull : allFull (enqueue st.queues i v) = false) :
    step rm st (Ev.send i v)
      = { st with queues := enqueue st.queues i v,
                  output := st.output
                    ++ (if othersDone i st.is_done then [DownEv.close] else []) } := by
  obtain ⟨qs, ds, out⟩ := st
  simp only [step, send, next, enqueue] at *
  simp only [List.getD_eq_getElem?_getD] at hfull ⊢
  simp only [hfull]
  by_cases h2 : othersDone i ds = true
  · simp [h2]
  · simp only [Bool.not_eq_true] at h2
    simp [h2]

theorem step_close_eq {α β ε : Type} (rm : List α → Except ε β) (i : Nat)
    (st : ZipState α β ε) :
    step rm st (Ev.close i)
      = { st with is_done := st.is_done.set i true,
                  output := st.output
                    ++ (if (st.is_done.set i true).all (fun b => b) then [DownEv.close]
                        else []) } := by
  obtain ⟨qs, ds, out⟩ := st
  simp only [step, done]
  by_cases h : (ds.set i true).all (fun b => b) = true
  · simp [h]
  · simp only [Bool.not_eq_true] at h
    simp [h]

end RxZip

namespace RxZip

theorem isRun_nil_eq_nil {α ε : Type} (tr : List (Ev α ε)) (h : IsRun [] tr) : tr = [] := by
  rcases h with ⟨h1, _⟩
  cases tr with
  | nil => rfl
  | cons e rest => exact absurd (h1 e (List.mem_cons_self e rest)) (Nat.not_lt_zero _)

/-- C8: with zero source operands, `subscribe` installs no per-source callback,
so no internal event can ever occur, and the combined sequence never makes a
value (`send`) notification downstream. -/
theorem zip_zero_sources_no_values {α β ε : Type} (rm : List α → Except ε β)
    (tr : List (Ev α ε)) (h : IsRun ([] : List (List α)) tr) :
    outputSends (run rm 0 tr).output = [] := by
  rw [isRun_nil_eq_nil tr h]
  rfl

theorem zip_zero_sources_no_values_witness :
    IsRun ([] : List (List Nat)) ([] : List (Ev Nat Nat)) ∧
      outputSends (run (fun _ : List Nat => (Except.ok 0 : Except Nat Nat)) 0
        ([] : List (Ev Nat Nat))).output = [] :=
  ⟨by decide, zip_zero_sources_no_values _ _ (by decide)⟩

/-- C10: with zero source operands no terminal notification is delivered
either: the run makes no `close` and no `throw` call, and the subscriber
receives nothing at all. -/
theorem zip_zero_sources_no_terminal {α β ε : Type} (rm : List α → Except ε β)
    (tr : List (Ev α ε)) (h : IsRun ([] : List (List α)) tr) :
    hasTerminal (run rm 0 tr).output = false ∧ deliver (run rm 0 tr).output = [] := by
  rw [isRun_nil_eq_nil tr h]
  exact ⟨rfl, rfl⟩

theorem zip_zero_sources_no_terminal_witness :
    IsRun ([] : List (List Nat)) ([] : List (Ev Nat Nat)) ∧
      (hasTerminal (run (fun _ : List Nat => (Except.ok 0 : Except Nat Nat)) 0
          ([] : List (Ev Nat Nat))).output = false ∧
        deliver (run (fun _ : List Nat => (Except.ok 0 : Except Nat Nat)) 0
          ([] : List (Ev Nat Nat))).output = []) :=
  ⟨by decide, zip_zero_sources_no_terminal _ _ (by decide)⟩

/-- C6: termination of the combined sequence is idempotent.  Once the calls
made downstream contain a terminal one, any further input notifications
(arbitrary `evs`) leave the delivered downstream sequence unchanged: no
additional notification, in particular no value, reaches the subscriber after
a completion or failure. -/
theorem zip_termination_idempotent {α β ε : Type} (rm : List α → Except ε β)
    (st : ZipState α β ε) (evs : List (Ev α ε))
    (h : hasTerminal st.output = true) :
    deliver ((evs.foldl (step rm) st).output) = deliver st.output := by
  obtain ⟨d, hd⟩ := run_output_extends rm evs st
  rw [hd, deliver_append_of_terminal _ _ h]

theorem zip_termination_idempotent_witness :
    hasTerminal ([DownEv.close] : List (DownEv Nat Nat)) = true ∧
      deliver (([Ev.send 0 5, Ev.send 1 6, Ev.close 0].foldl
          (step (fun xs : List Nat => (Except.ok (xs.foldr (· + ·) 0) : Except Nat Nat)))
          ⟨[[], []], [false, false], [DownEv.close]⟩).output)
        = deliver ([DownEv.close] : List (DownEv Nat Nat)) :=
  ⟨by decide, zip_termination_idempotent _ _ _ (by decide)⟩

/-- C5: in the N-ary path, when the combiner raises while computing a result,
the error is forwarded downstream as a failure, no value is emitted for that
tuple, and whatever notifications arrive afterwards (`rest`), nothing further
is delivered to the subscriber after the failure. -/
theorem zip_mapper_error_terminates {α β ε : Type} (rm : List α → Except ε β)
    (i : Nat) (v : α) (st : ZipState α β ε) (e : ε) (rest : List (Ev α ε))
    (hsend : hasTerminal st.output = false)
    (hfull : allFull (enqueue st.queues i v) = true)
    (herr : rm ((enqueue st.queues i v).filterMap List.head?) = Except.error e) :
    deliver ((rest.foldl (step rm) (step rm st (Ev.send i v))).output)
      = st.output ++ [DownEv.throw e] := by
  obtain ⟨d, hd⟩ := run_output_extends rm rest (step rm st (Ev.send i v))
  rw [hd, step_send_error rm i v st e hfull herr]
  show deliver ((st.output ++ [DownEv.throw e]) ++ d) = _
  rw [List.append_assoc, deliver_append_of_no_terminal _ _ hsend]
  simp [deliver]

theorem zip_mapper_error_terminates_witness :
    hasTerminal ([] : List (DownEv Nat PyErr)) = false ∧
      allFull (enqueue [[], [10]] 0 1) = true ∧
      (fun _ : List Nat => (Except.error (PyErr.boom 1) : Except PyErr Nat))
          ((enqueue [[], [10]] 0 1).filterMap List.head?) = Except.error (PyErr.boom 1) ∧
      deliver (([Ev.send 1 20, Ev.close 0].foldl
          (step (fun _ : List Nat => (Except.error (PyErr.boom 1) : Except PyErr Nat)))
          (step (fun _ : List Nat => (Except.error (PyErr.boom 1) : Except PyErr Nat))
            ⟨[[], [10]], [false, false], []⟩ (Ev.send 0 1))).output)
        = [] ++ [DownEv.throw (PyErr.boom 1)] :=
  ⟨by decide, by decide, rfl,
    zip_mapper_error_terminates _ 0 1 _ _ _ (by decide) (by decide) rfl⟩

/-- C9: when the combiner raises, the head of every queue has already been
popped and is not restored: the state after the failure has each queue equal
to the tail of the queue the combination started from, one element shorter. -/
theorem zip_mapper_error_leaves_queues_popped {α β ε : Type} (rm : List α → Except ε β)
    (i : Nat) (v : α) (st : ZipState α β ε) (e : ε)
    (hfull : allFull (enqueue st.queues i v) = true)
    (herr : rm ((enqueue st.queues i v).filterMap List.head?) = Except.error e) :
    (step rm st (Ev.send i v)).queues = (enqueue st.queues i v).map List.tail ∧
      (step rm st (Ev.send i v)).output = st.output ++ [DownEv.throw e] ∧
      ∀ j, j < (enqueue st.queues i v).length →
        ((step rm st (Ev.send i v)).queues.getD j []).length + 1
          = ((enqueue st.queues i v).getD j []).length := by
  rw [step_send_error rm i v st e hfull herr]
  refine ⟨rfl, rfl, ?_⟩
  intro j hj
  have hq : (enqueue st.queues i v)[j]? = some ((enqueue st.queues i v)[j]) :=
    List.getElem?_eq_getElem hj
  have hmem : (enqueue st.queues i v)[j] ∈ enqueue st.queues i v := List.getElem_mem hj
  have hne : (enqueue st.queues i v)[j] ≠ [] := by
    have := List.all_eq_true.mp hfull _ hmem
    simpa using this
  have hpos : 0 < ((enqueue st.queues i v)[j]).length := List.length_pos.mpr hne
  simp only [List.getD_eq_getElem?_getD, List.getElem?_map, hq]
  simp only [Option.map_some', Option.getD_some, List.length_tail]
  omega

theorem zip_mapper_error_leaves_queues_popped_witness :
    allFull (enqueue [[], [10]] 0 1) = true ∧
      (fun _ : List Nat => (Except.error (PyErr.boom 2) : Except PyErr Nat))
          ((enqueue [[], [10]] 0 1).filterMap List.head?) = Except.error (PyErr.boom 2) ∧
      ((step (fun _ : List Nat => (Except.error (PyErr.boom 2) : Except PyErr Nat))
            ⟨[[], [10]], [false, false], []⟩ (Ev.send 0 1)).queues
          = (enqueue [[], [10]] 0 1).map List.tail ∧
        (step (fun _ : List Nat => (Except.error (PyErr.boom 2) : Except PyErr Nat))
            ⟨[[], [10]], [false, false], []⟩ (Ev.send 0 1)).output
          = [] ++ [DownEv.throw (PyErr.boom 2)] ∧
        ∀ j, j < (enqueue [[], [10]] 0 1).length →
          (((step (fun _ : List Nat => (Except.error (PyErr.boom 2) : Except PyErr Nat))
              ⟨[[], [10]], [false, false], []⟩ (Ev.send 0 1)).queues.getD j []).length + 1
            = ((enqueue [[], [10]] 0 1).getD j []).length)) :=
  ⟨by decide, rfl,
    zip_mapper_error_leaves_queues_popped _ 0 1 _ _ (by decide) rfl⟩

/-- C7: the done detection of the N-ary path is asymmetric.  When a value
from source `i` arrives and not every queue is non-empty, downstream is
closed exactly when every done flag other than the one of `i` is set (the
queues of the other sources are not consulted); and a completion notification
alone closes downstream only when it makes all flags set, so a source whose
queue is still non-empty while all others are done does not trigger
completion until that source itself delivers a value. -/
theorem zip_done_detection_asymmetric {α β ε : Type} (rm : List α → Except ε β)
    (i : Nat) (v : α) (st : ZipState α β ε) :
    (allFull (enqueue st.queues i v) = false →
      (step rm st (Ev.send i v)).output
        = st.output ++ (if othersDone i st.is_done then [DownEv.close] else [])) ∧
    ∀ j, (st.is_done.set j true).all (fun b => b) = false →
      (step rm st (Ev.close j)).output = st.output := by
  constructor
  · intro hfull
    rw [step_send_notfull rm i v st hfull]
  · intro j hall
    rw [step_close_eq rm j st, hall]
    simp

theorem zip_done_detection_asymmetric_witness :
    (allFull (enqueue [[5], []] 0 7) = false ∧
      (step (fun _ : List Nat => (Except.ok 0 : Except Nat Nat))
          ⟨[[5], []], [false, false], []⟩ (Ev.send 0 7)).output
        = [] ++ (if othersDone 0 [false, false] then [DownEv.close] else [])) ∧
    ((([false, false].set 1 true).all (fun b => b)) = false ∧
      (step (fun _ : List Nat => (Except.ok 0 : Except Nat Nat))
          ⟨[[5], []], [false, false], []⟩ (Ev.close 1)).output = []) :=
  ⟨⟨by decide, (zip_done_detection_asymmetric _ 0 7 _).1 (by decide)⟩,
    ⟨by decide, (zip_done_detection_asymmetric _ 0 7 _).2 1 (by decide)⟩⟩

end RxZip

/-- C4 (code behaviour at the failing inputs): when no result mapper is
supplied the code does not collect the values into a list.  In the N-ary path
the default of line 35 is the Python builtin `list`, called with the popped
values as positional arguments, which for two sources raises `TypeError`, so
the first complete tuple produces a failure instead of the collected pair
`[1, 10]`.  In the list path the dispatch of line 32 happens before the
default is substituted, so `_zip_with_list` receives `None` as mapper and the
first value produces a `TypeError: 'NoneType' object is not callable`
failure instead of `[1, 10]`. -/
theorem zip_default_mapper_raises :
    RxZip.deliver (RxZip.run pyListStar 2
        [RxZip.Ev.send 0 1, RxZip.Ev.send 1 10]).output
      = [RxZip.DownEv.throw PyErr.typeErrorListArity] ∧
    RxZip.deliver (RxZipList.run (none : Option (Nat → Nat → Except PyErr Nat)) [10, 20]
        [RxZipList.LEv.send 1]).output
      = [RxZip.DownEv.throw RxZipList.PyCallErr.noneNotCallable] := by
  decide

namespace RxZip

theorem outputSends_append {β ε : Type} (A B : List (DownEv β ε)) :
    outputSends (A ++ B) = outputSends A ++ outputSends B :=
  List.filterMap_append A B DownEv.value?

end RxZip

namespace RxZipList

theorem run_send_output {α β ε : Type} (f : α → α → β) (second : List α) :
    ∀ (vs : List α) (j : Nat) (out : List (RxZip.DownEv β (PyCallErr ε))),
      ((vs.map LEv.send).foldl (lstep (some fun a b => Except.ok (f a b)) second)
          (⟨j, out⟩ : LState α β ε)).output
        = out ++ (List.zipWith f vs (second.drop j)).map RxZip.DownEv.send
            ++ List.replicate (vs.length - (second.length - j)) RxZip.DownEv.close := by
  intro vs
  induction vs with
  | nil => intro j out; simp
  | cons v vs ih =>
    intro j out
    simp only [List.map_cons, List.foldl_cons]
    cases hj : second[j]? with
    | some r =>
      have hjlen : j < second.length := by
        by_contra hge
        rw [List.getElem?_eq_none_iff.mpr (Nat.le_of_not_lt hge)] at hj
        exact Option.noConfusion hj
      have hsend : lstep (some fun a b => Except.ok (f a b)) second
            (⟨j, out⟩ : LState α β ε) (LEv.send v)
          = ⟨j + 1, out ++ [RxZip.DownEv.send (f v r)]⟩ := by
        simp [lstep, send, hj, callMapper]
      rw [hsend, ih (j + 1) (out ++ [RxZip.DownEv.send (f v r)])]
      have hdrop : second.drop j = r :: second.drop (j + 1) := by
        rw [List.drop_eq_getElem_cons hjlen]
        have : second[j] = r := by
          have h2 := List.getElem?_eq_getElem hjlen
          rw [hj] at h2
          exact (Option.some.inj h2).symm
        rw [this]
      rw [hdrop]
      have hcount : vs.length + 1 - (second.length - j)
          = vs.length - (second.length - (j + 1)) := by omega
      simp only [List.zipWith_cons_cons, List.map_cons, List.length_cons, hcount,
        List.append_assoc, List.cons_append, List.singleton_append, List.nil_append]
    | none =>
      have hjlen : second.length ≤ j := List.getElem?_eq_none_iff.mp hj
      have hsend : lstep (some fun a b => Except.ok (f a b)) second
            (⟨j, out⟩ : LState α β ε) (LEv.send v)
          = ⟨j, out ++ [RxZip.DownEv.close]⟩ := by
        simp [lstep, send, hj]
      rw [hsend, ih j (out ++ [RxZip.DownEv.close])]
      have hdrop : second.drop j = [] := List.drop_eq_nil_of_le hjlen
      have hzero : second.length - j = 0 := by omega
      rw [hdrop, hzero]
      simp only [List.zipWith_nil_right, List.map_nil, List.append_nil, List.length_cons,
        Nat.sub_zero, List.append_assoc, List.nil_append]
      rw [List.replicate_succ]
      simp

end RxZipList

/-- C2: on the list path, for an asynchronous source emitting the values `vs`
and a list operand `second`, the values delivered downstream are exactly
`List.zipWith f vs second`: `min (vs.length, second.length)` values, the
`i`-th being the combiner applied to the `i`-th source value and the `i`-th
list element, one consumed per notification. -/
theorem zip_with_list_values {α β ε : Type} (f : α → α → β) (second vs : List α) :
    RxZip.outputSends (RxZip.deliver (RxZipList.run
        (some fun a b => (Except.ok (f a b) : Except ε β)) second
        (vs.map RxZipList.LEv.send)).output)
      = List.zipWith f vs second := by
  unfold RxZipList.run
  rw [RxZipList.run_send_output f second vs 0 []]
  simp only [List.nil_append, List.drop_zero, Nat.sub_zero]
  cases hm : vs.length - second.length with
  | zero =>
    simp only [List.replicate_zero, List.append_nil]
    rw [RxZip.deliver_map_send]
    exact RxZip.outputSends_map_send _
  | succ k =>
    rw [List.replicate_succ,
      RxZip.deliver_append_of_no_terminal _ _ (RxZip.hasTerminal_map_send _)]
    show RxZip.outputSends (_ ++ RxZip.deliver (RxZip.DownEv.close :: _)) = _
    rw [show RxZip.deliver (RxZip.DownEv.close :: List.replicate k RxZip.DownEv.close)
        = [RxZip.DownEv.close] from rfl]
    rw [RxZip.outputSends_append, RxZip.outputSends_map_send]
    simp [RxZip.outputSends, RxZip.DownEv.value?]

/-- C3: on the list path, when the source emits more values than the list
operand has elements, the subscriber receives exactly the
`second.length` combined values immediately followed by a completion, with
no completion notification from the source needed and all further source
values ignored. -/
theorem zip_with_list_completes_early {α β ε : Type} (f : α → α → β) (second vs : List α)
    (h : second.length < vs.length) :
    RxZip.deliver (RxZipList.run
        (some fun a b => (Except.ok (f a b) : Except ε β)) second
        (vs.map RxZipList.LEv.send)).output
      = (List.zipWith f vs second).map RxZip.DownEv.send ++ [RxZip.DownEv.close] := by
  unfold RxZipList.run
  rw [RxZipList.run_send_output f second vs 0 []]
  simp only [List.nil_append, List.drop_zero, Nat.sub_zero]
  obtain ⟨k, hk⟩ : ∃ k, vs.length - second.length = k + 1 :=
    ⟨vs.length - second.length - 1, by omega⟩
  rw [hk, List.replicate_succ,
    RxZip.deliver_append_of_no_terminal _ _ (RxZip.hasTerminal_map_send _)]
  rfl

theorem zip_with_list_completes_early_witness :
    ([10, 20] : List Nat).length < ([1, 2, 3, 4] : List Nat).length ∧
      RxZip.deliver (RxZipList.run
          (some fun a b => (Except.ok (a + b) : Except PyErr Nat)) [10, 20]
          (([1, 2, 3, 4] : List Nat).map RxZipList.LEv.send)).output
        = [RxZip.DownEv.send 11, RxZip.DownEv.send 22, RxZip.DownEv.close] :=
  ⟨by decide,
    (zip_with_list_completes_early (fun a b => a + b) [10, 20] [1, 2, 3, 4]
      (by decide)).trans (by decide)⟩

namespace RxZip

theorem sent_append {α ε : Type} (i : Nat) (p q : List (Ev α ε)) :
    sent i (p ++ q) = sent i p ++ sent i q :=
  List.filterMap_append p q (sentTo i)

theorem sent_snoc_send_self {α ε : Type} (i : Nat) (v : α) (p : List (Ev α ε)) :
    sent i (p ++ [(Ev.send i v : Ev α ε)]) = sent i p ++ [v] := by
  rw [sent_append]
  simp [sent, sentTo]

theorem sent_snoc_send_ne {α ε : Type} {i j : Nat} (h : j ≠ i) (v : α) (p : List (Ev α ε)) :
    sent i (p ++ [(Ev.send j v : Ev α ε)]) = sent i p := by
  rw [sent_append]
  simp [sent, sentTo, h]

theorem sent_snoc_close {α ε : Type} (i j : Nat) (p : List (Ev α ε)) :
    sent i (p ++ [(Ev.close j : Ev α ε)]) = sent i p := by
  rw [sent_append]
  simp [sent, sentTo]

theorem sent_ofSource {α ε : Type} (i : Nat) (tr : List (Ev α ε)) :
    sent i (ofSource i tr) = sent i tr := by
  induction tr with
  | nil => rfl
  | cons e tr ih =>
    by_cases he : e.idx = i
    · have : ofSource i (e :: tr) = e :: ofSource i tr := by
        simp [ofSource, List.filter_cons, he]
      rw [this]
      simp only [sent, List.filterMap_cons]
      cases sentTo i e <;> simp_all [sent]
    · have h1 : ofSource i (e :: tr) = ofSource i tr := by
        simp [ofSource, List.filter_cons, he]
      have h2 : sentTo i e = none := by
        cases e with
        | send j v =>
          simp only [Ev.idx] at he
          simp [sentTo, he]
        | close j => rfl
        | throw j ex => rfl
      rw [h1, ih]
      simp only [sent, List.filterMap_cons, h2]

theorem sent_events_self {α ε : Type} (i : Nat) (s : List α) :
    sent i ((events i s : List (Ev α ε))) = s := by
  induction s with
  | nil => rfl
  | cons v s ih =>
    have hcons : (events i (v :: s) : List (Ev α ε)) = Ev.send i v :: events i s := by
      simp [events]
    rw [hcons]
    simp only [sent, List.filterMap_cons]
    have hv : sentTo i (Ev.send i v : Ev α ε) = some v := by simp [sentTo]
    rw [hv]
    rw [show List.filterMap (sentTo i) (events i s : List (Ev α ε))
      = sent i (events i s) from rfl, ih]

theorem isRun_sent {α ε : Type} {srcs : List (List α)} {tr : List (Ev α ε)}
    (h : IsRun srcs tr) {i : Nat} (hi : i < srcs.length) :
    sent i tr = srcs.getD i [] := by
  rw [← sent_ofSource, h.2 i hi, sent_events_self]

theorem isRun_no_throw {α ε : Type} {srcs : List (List α)} {tr : List (Ev α ε)}
    (h : IsRun srcs tr) (i : Nat) (ex : ε) : (Ev.throw i ex : Ev α ε) ∉ tr := by
  intro hmem
  have hidx : (Ev.throw i ex : Ev α ε).idx < srcs.length := h.1 _ hmem
  have hfil : (Ev.throw i ex : Ev α ε) ∈ ofSource i tr := by
    simp [ofSource, List.mem_filter, hmem, Ev.idx]
  rw [h.2 i hidx] at hfil
  simp only [events, List.mem_append, List.mem_map, List.mem_singleton] at hfil
  rcases hfil with ⟨v, _, hv⟩ | hv <;> exact Ev.noConfusion hv

theorem isRun_close_not_before_send {α ε : Type} {srcs : List (List α)}
    {tr p rest : List (Ev α ε)} {i : Nat} {v : α}
    (h : IsRun srcs tr) (hsplit : tr = p ++ Ev.send i v :: rest) :
    (Ev.close i : Ev α ε) ∉ p := by
  intro hclose
  have hmem : (Ev.send i v : Ev α ε) ∈ tr := by
    rw [hsplit]; exact List.mem_append_right _ (List.mem_cons_self _ _)
  have hidx : i < srcs.length := h.1 _ hmem
  have hfil := h.2 i hidx
  rw [hsplit] at hfil
  have hsend : ofSource i (p ++ Ev.send i v :: rest)
      = ofSource i p ++ Ev.send i v :: ofSource i rest := by
    simp [ofSource, List.filter_append, List.filter_cons, Ev.idx]
  rw [hsend, events] at hfil
  have hcl_fil : (Ev.close i : Ev α ε) ∈ ofSource i p := by
    simp [ofSource, List.mem_filter, hclose, Ev.idx]
  have hnotin : (Ev.close i : Ev α ε) ∉ (srcs.getD i []).map (Ev.send i) := by
    intro hmm
    rcases List.mem_map.mp hmm with ⟨w, _, hw⟩
    exact Ev.noConfusion hw
  rcases List.append_eq_append_iff.mp hfil with ⟨m, hm1, _⟩ | ⟨m, _, hm2⟩
  · exact hnotin (hm1 ▸ List.mem_append_left _ hcl_fil)
  · have hlen := congrArg List.length hm2
    simp only [List.length_singleton, List.length_append, List.length_cons] at hlen
    have hm_nil : m = [] := by
      cases m with
      | nil => rfl
      | cons a m2 => simp at hlen; omega
    rw [hm_nil] at hm2
    simp only [List.nil_append] at hm2
    injection hm2 with h1 h2
    exact Ev.noConfusion h1

end RxZip

namespace RxZip

theorem exists_of_all_eq_false {γ : Type} {l : List γ} {p : γ → Bool}
    (h : l.all p = false) : ∃ x ∈ l, p x = false := by
  by_contra hc
  push_neg at hc
  have hall : l.all p = true := List.all_eq_true.mpr fun x hx => by
    cases hpx : p x with
    | true => rfl
    | false => exact absurd hpx (hc x hx)
  rw [hall] at h
  exact Bool.noConfusion h

theorem getD_map_range {γ : Type} (g : Nat → γ) {n i : Nat} (hi : i < n) (d : γ) :
    ((List.range n).map g).getD i d = g i := by
  rw [List.getD_eq_getElem?_getD, List.getElem?_map, List.getElem?_range hi]
  rfl

theorem set_map_range {γ : Type} (g : Nat → γ) {n i : Nat} (hi : i < n) (x : γ) :
    ((List.range n).map g).set i x
      = (List.range n).map fun j => if j = i then x else g j := by
  apply List.ext_getElem?
  intro m
  rw [List.getElem?_set]
  simp only [List.length_map, List.length_range]
  by_cases hmi : i = m
  · subst hmi
    rw [if_pos rfl, if_pos hi, List.getElem?_map, List.getElem?_range hi]
    simp
  · rw [if_neg hmi, List.getElem?_map, List.getElem?_map]
    by_cases hm : m < n
    · rw [List.getElem?_range hm]
      have hne : m ≠ i := fun hh => hmi hh.symm
      simp [hne]
    · rw [List.getElem?_eq_none_iff.mpr (by simpa using Nat.le_of_not_lt hm)]
      rfl

theorem map_range_congr {γ : Type} {g g' : Nat → γ} {n : Nat}
    (h : ∀ j, j < n → g j = g' j) :
    (List.range n).map g = (List.range n).map g' :=
  List.map_congr_left fun j hj => h j (List.mem_range.mp hj)

theorem filterMap_range_congr {γ : Type} {g g' : Nat → Option γ} {n : Nat}
    (h : ∀ j, j < n → g j = g' j) :
    (List.range n).filterMap g = (List.range n).filterMap g' :=
  List.filterMap_congr fun j hj => h j (List.mem_range.mp hj)

theorem getD_of_all_true {l : List Bool} (hall : l.all (fun b => b) = true)
    {j : Nat} (hj : j < l.length) : l.getD j false = true := by
  have hmem : l[j] ∈ l := List.getElem_mem hj
  have := List.all_eq_true.mp hall _ hmem
  rw [List.getD_eq_getElem?_getD, List.getElem?_eq_getElem hj]
  exact this

theorem othersDone_getD {l : List Bool} {i : Nat} (h : othersDone i l = true)
    {j : Nat} (hj : j < l.length) (hne : j ≠ i) : l.getD j false = true := by
  have hj2 : l[j]? = some l[j] := List.getElem?_eq_getElem hj
  have hmem_enum : ((j, l[j]) : Nat × Bool) ∈ l.enum :=
    List.mem_enum_iff_getElem?.mpr hj2
  have hmem_fil : ((j, l[j]) : Nat × Bool) ∈ l.enum.filter fun p => !(p.1 == i) := by
    rw [List.mem_filter]
    refine ⟨hmem_enum, ?_⟩
    simp [hne]
  have := List.all_eq_true.mp h _ hmem_fil
  rw [List.getD_eq_getElem?_getD, hj2]
  exact this

theorem minLen_le_getD {α : Type} : ∀ (srcs : List (List α)) (j : Nat), j < srcs.length →
    minLen srcs ≤ (srcs.getD j []).length := by
  intro srcs
  induction srcs with
  | nil => intro j hj; exact absurd hj (Nat.not_lt_zero j)
  | cons s rest ih =>
    intro j hj
    cases rest with
    | nil =>
      cases j with
      | zero => simp [minLen]
      | succ j2 => simp at hj
    | cons r rest2 =>
      cases j with
      | zero =>
        simp only [minLen, List.getD_cons_zero]
        exact min_le_left _ _
      | succ j2 =>
        simp only [minLen, List.getD_cons_succ]
        exact le_trans (min_le_right _ _) (ih j2 (by simpa using hj))

theorem le_minLen {α : Type} : ∀ (srcs : List (List α)) (P : Nat), 1 ≤ srcs.length →
    (∀ j, j < srcs.length → P ≤ (srcs.getD j []).length) → P ≤ minLen srcs := by
  intro srcs
  induction srcs with
  | nil => intro P hn; simp at hn
  | cons s rest ih =>
    intro P _ hle
    cases rest with
    | nil => simpa [minLen] using hle 0 (by simp)
    | cons r rest2 =>
      refine le_min (by simpa using hle 0 (by simp)) (ih P (by simp) ?_)
      intro j hj
      simpa using hle (j + 1) (by simpa using hj)

theorem minLen_char {α : Type} (srcs : List (List α)) (P : Nat) (hn : 1 ≤ srcs.length)
    (hle : ∀ j, j < srcs.length → P ≤ (srcs.getD j []).length)
    (hex : ∃ j, j < srcs.length ∧ P = (srcs.getD j []).length) : P = minLen srcs := by
  rcases hex with ⟨j, hj, hPj⟩
  exact le_antisymm (le_minLen srcs P hn hle) (hPj ▸ minLen_le_getD srcs j hj)

theorem filterMap_range_getD {α γ : Type} (g : List α → Option γ) :
    ∀ L : List (List α),
      (List.range L.length).filterMap (fun j => g (L.getD j [])) = L.filterMap g := by
  intro L
  induction L with
  | nil => rfl
  | cons s L ih =>
    rw [List.length_cons, List.range_succ_eq_map, List.filterMap_cons]
    have htail : (List.map Nat.succ (List.range L.length)).filterMap
          (fun j => g ((s :: L).getD j []))
        = (List.range L.length).filterMap (fun j => g (L.getD j [])) := by
      rw [List.filterMap_map]
      exact List.filterMap_congr fun j _ => by simp [Function.comp, List.getD_cons_succ]
    cases hgs : g ((s :: L).getD 0 []) with
    | none =>
      rw [htail, ih]
      simp only [List.getD_cons_zero] at hgs
      rw [List.filterMap_cons, hgs]
    | some y =>
      rw [htail, ih]
      simp only [List.getD_cons_zero] at hgs
      rw [List.filterMap_cons, hgs]

end RxZip

namespace RxZip

theorem tupleAt_snoc_close {α ε : Type} (p : List (Ev α ε)) (n k j : Nat) :
    tupleAt (p ++ [(Ev.close j : Ev α ε)]) n k = tupleAt p n k := by
  unfold tupleAt
  exact filterMap_range_congr fun j2 _ => by rw [sent_snoc_close]

theorem tupleAt_snoc_send_lt {α ε : Type} (p : List (Ev α ε)) {k i : Nat} (n : Nat) (v : α)
    (hk : k < (sent i p).length) :
    tupleAt (p ++ [(Ev.send i v : Ev α ε)]) n k = tupleAt p n k := by
  unfold tupleAt
  apply filterMap_range_congr
  intro j _
  by_cases hji : j = i
  · subst hji
    rw [sent_snoc_send_self, List.getElem?_append, if_pos hk]
  · rw [sent_snoc_send_ne (fun hh => hji hh.symm)]

theorem getD_set_self {l : List Bool} {i : Nat} (hi : i < l.length) (x d : Bool) :
    (l.set i x).getD i d = x := by
  rw [List.getD_eq_getElem?_getD, List.getElem?_set, if_pos rfl, if_pos hi]
  rfl

theorem getD_set_ne {l : List Bool} {i j : Nat} (h : i ≠ j) (x d : Bool) :
    (l.set i x).getD j d = l.getD j d := by
  rw [List.getD_eq_getElem?_getD, List.getElem?_set, if_neg h, List.getD_eq_getElem?_getD]

theorem replicate_eq_map_range {γ : Type} (n : Nat) (x : γ) :
    List.replicate n x = (List.range n).map fun _ => x := by
  induction n with
  | zero => rfl
  | succ m ih =>
    rw [List.replicate_succ', List.range_succ, List.map_append, ← ih]
    rfl

/-- The invariant tying the state of the N-ary machine after processing the
trace prefix `p` to the values each source has delivered within `p`: `P` is
the number of combinations emitted so far, `c` the number of `close` calls
made so far. -/
structure Inv {α β ε : Type} (f : List α → β) (srcs : List (List α))
    (p : List (Ev α ε)) (st : ZipState α β ε) (P c : Nat) : Prop where
  hq : st.queues = (List.range srcs.length).map fun j => (sent j p).drop P
  hdlen : st.is_done.length = srcs.length
  hle : ∀ j, j < srcs.length → P ≤ (sent j p).length
  hex : ∃ j, j < srcs.length ∧ P = (sent j p).length
  hout : st.output
    = ((List.range P).map fun k => f (tupleAt p srcs.length k)).map DownEv.send
      ++ List.replicate c DownEv.close
  hcz : c ≠ 0 → ∃ j, j < srcs.length ∧ (Ev.close j : Ev α ε) ∈ p ∧ P = (sent j p).length
  hdone : ∀ j, j < srcs.length →
    (st.is_done.getD j false = true ↔ (Ev.close j : Ev α ε) ∈ p)

theorem inv_init {α β ε : Type} (f : List α → β) (srcs : List (List α))
    (hn : 1 ≤ srcs.length) :
    Inv f srcs ([] : List (Ev α ε)) (initState α β ε srcs.length) 0 0 := by
  constructor
  · show List.replicate srcs.length [] = _
    rw [replicate_eq_map_range]
    exact map_range_congr fun j _ => by simp [sent]
  · exact List.length_replicate _ _
  · intro j _
    exact Nat.zero_le _
  · exact ⟨0, hn, rfl⟩
  · rfl
  · intro h0
    exact absurd rfl h0
  · intro j hj
    constructor
    · intro hg
      exfalso
      simp [initState, List.getD_eq_getElem?_getD, List.getElem?_replicate, hj] at hg
    · intro hmem
      exact absurd hmem (List.not_mem_nil _)

theorem inv_step_close {α β ε : Type} {f : List α → β} {srcs : List (List α)}
    {p : List (Ev α ε)} {st : ZipState α β ε} {P c : Nat}
    (inv : Inv f srcs p st P c) {i : Nat} (hi : i < srcs.length) :
    ∃ c2, Inv f srcs (p ++ [Ev.close i])
      (step (fun xs => (Except.ok (f xs) : Except ε β)) st (Ev.close i)) P c2 := by
  rw [step_close_eq]
  have hq2 : st.queues = (List.range srcs.length).map
      fun j => (sent j (p ++ [(Ev.close i : Ev α ε)])).drop P := by
    rw [inv.hq]
    exact map_range_congr fun j _ => by rw [sent_snoc_close]
  have hout2 : ((List.range P).map
        fun k => f (tupleAt (p ++ [(Ev.close i : Ev α ε)]) srcs.length k))
      = (List.range P).map fun k => f (tupleAt p srcs.length k) :=
    map_range_congr fun k _ => by rw [tupleAt_snoc_close]
  have hdone2 : ∀ j, j < srcs.length →
      (((st.is_done.set i true).getD j false = true)
        ↔ (Ev.close j : Ev α ε) ∈ p ++ [Ev.close i]) := by
    intro j hj
    by_cases hji : j = i
    · subst hji
      have hset : (st.is_done.set j true).getD j false = true :=
        getD_set_self (by rw [inv.hdlen]; exact hj) true false
      exact ⟨fun _ => List.mem_append_right _ (List.mem_singleton.mpr rfl), fun _ => hset⟩
    · rw [getD_set_ne (fun hh => hji hh.symm), inv.hdone j hj]
      simp [List.mem_append, hji]
  by_cases hall : (st.is_done.set i true).all (fun b => b) = true
  · refine ⟨c + 1, ?_, ?_, ?_, ?_, ?_, ?_, ?_⟩
    · rw [if_pos hall]
      exact hq2
    · rw [if_pos hall]
      simp [List.length_set, inv.hdlen]
    · intro j hj
      rw [sent_snoc_close]
      exact inv.hle j hj
    · obtain ⟨j, hj, hPj⟩ := inv.hex
      exact ⟨j, hj, by rw [sent_snoc_close]; exact hPj⟩
    · rw [if_pos hall]
      show st.output ++ [DownEv.close] = _
      rw [inv.hout, hout2, List.replicate_succ', ← List.append_assoc]
    · intro _
      obtain ⟨j, hj, hPj⟩ := inv.hex
      refine ⟨j, hj, ?_, by rw [sent_snoc_close]; exact hPj⟩
      by_cases hji : j = i
      · subst hji
        exact List.mem_append_right _ (List.mem_singleton.mpr rfl)
      · have hg : (st.is_done.set i true).getD j false = true :=
          getD_of_all_true hall (by rw [List.length_set, inv.hdlen]; exact hj)
        rw [getD_set_ne (fun hh => hji hh.symm)] at hg
        exact List.mem_append_left _ ((inv.hdone j hj).mp hg)
    · intro j hj
      rw [if_pos hall]
      exact hdone2 j hj
  · refine ⟨c, ?_, ?_, ?_, ?_, ?_, ?_, ?_⟩
    · rw [if_neg hall]
      exact hq2
    · rw [if_neg hall]
      simp [List.length_set, inv.hdlen]
    · intro j hj
      rw [sent_snoc_close]
      exact inv.hle j hj
    · obtain ⟨j, hj, hPj⟩ := inv.hex
      exact ⟨j, hj, by rw [sent_snoc_close]; exact hPj⟩
    · rw [if_neg hall]
      show st.output ++ [] = _
      rw [List.append_nil, inv.hout, hout2]
    · intro hc
      obtain ⟨j, hj, hcl, hPj⟩ := inv.hcz hc
      exact ⟨j, hj, List.mem_append_left _ hcl, by rw [sent_snoc_close]; exact hPj⟩
    · intro j hj
      rw [if_neg hall]
      exact hdone2 j hj

end RxZip

namespace RxZip

theorem inv_step_send_full {α β ε : Type} {f : List α → β} {srcs : List (List α)}
    {p : List (Ev α ε)} {st : ZipState α β ε} {P c : Nat}
    (inv : Inv f srcs p st P c) {i : Nat} {v : α} (hi : i < srcs.length)
    (hT1 : (Ev.close i : Ev α ε) ∉ p)
    (hfull : allFull (enqueue st.queues i v) = true) :
    Inv f srcs (p ++ [Ev.send i v])
      (step (fun xs => (Except.ok (f xs) : Except ε β)) st (Ev.send i v)) (P + 1) 0 := by
  have hsent_i : sent i (p ++ [(Ev.send i v : Ev α ε)]) = sent i p ++ [v] :=
    sent_snoc_send_self i v p
  have hsent_ne : ∀ j, j ≠ i → sent j (p ++ [(Ev.send i v : Ev α ε)]) = sent j p :=
    fun j hj => sent_snoc_send_ne (fun hh => hj hh.symm) v p
  have hEQ1 : enqueue st.queues i v = (List.range srcs.length).map
      fun j => (sent j (p ++ [(Ev.send i v : Ev α ε)])).drop P := by
    unfold enqueue
    rw [inv.hq, getD_map_range _ hi, set_map_range _ hi]
    apply map_range_congr
    intro j hj
    by_cases hji : j = i
    · subst hji
      rw [if_pos rfl, hsent_i, List.drop_append_of_le_length (inv.hle j hj)]
    · rw [if_neg hji, hsent_ne j hji]
  have hfull2 : ∀ j, j < srcs.length →
      (sent j (p ++ [(Ev.send i v : Ev α ε)])).drop P ≠ [] := by
    intro j hj
    rw [hEQ1] at hfull
    have hmem := List.mem_map_of_mem
      (fun j2 => (sent j2 (p ++ [(Ev.send i v : Ev α ε)])).drop P) (List.mem_range.mpr hj)
    have := List.all_eq_true.mp hfull _ hmem
    simpa using this
  have hlen2 : ∀ j, j < srcs.length →
      P + 1 ≤ (sent j (p ++ [(Ev.send i v : Ev α ε)])).length := by
    intro j hj
    by_contra hlt
    exact (hfull2 j hj) (List.drop_eq_nil_iff.mpr (by omega))
  have hlenP : (sent i p).length = P := by
    obtain ⟨j3, hj3, hPj3⟩ := inv.hex
    by_cases hj3i : j3 = i
    · subst hj3i
      exact hPj3.symm
    · exfalso
      have h1 := hlen2 j3 hj3
      rw [hsent_ne j3 hj3i] at h1
      omega
  have hc0 : c = 0 := by
    by_contra hc
    obtain ⟨j, hj, hcl, hPj⟩ := inv.hcz hc
    by_cases hji : j = i
    · exact hT1 (hji ▸ hcl)
    · have h1 := hlen2 j hj
      rw [hsent_ne j hji] at h1
      omega
  have hheads : (enqueue st.queues i v).filterMap List.head?
      = tupleAt (p ++ [(Ev.send i v : Ev α ε)]) srcs.length P := by
    rw [hEQ1, List.filterMap_map]
    unfold tupleAt
    apply filterMap_range_congr
    intro j _
    show ((sent j (p ++ [(Ev.send i v : Ev α ε)])).drop P).head? = _
    rw [List.head?_drop]
  rw [step_send_ok (fun xs => (Except.ok (f xs) : Except ε β)) i v st
    (f (tupleAt (p ++ [(Ev.send i v : Ev α ε)]) srcs.length P)) hfull (by rw [hheads])]
  refine ⟨?_, ?_, ?_, ?_, ?_, ?_, ?_⟩
  · show (enqueue st.queues i v).map List.tail = _
    rw [hEQ1, List.map_map]
    apply map_range_congr
    intro j _
    show ((sent j (p ++ [(Ev.send i v : Ev α ε)])).drop P).tail = _
    rw [List.tail_drop]
  · exact inv.hdlen
  · exact hlen2
  · refine ⟨i, hi, ?_⟩
    rw [hsent_i, List.length_append, List.length_singleton, hlenP]
  · show st.output ++ [DownEv.send _] = _
    rw [inv.hout, hc0]
    simp only [List.replicate_zero, List.append_nil]
    rw [List.range_succ, List.map_append, List.map_append]
    have hpre : (List.range P).map
          (fun k => f (tupleAt (p ++ [(Ev.send i v : Ev α ε)]) srcs.length k))
        = (List.range P).map fun k => f (tupleAt p srcs.length k) := by
      apply map_range_congr
      intro k hk
      rw [tupleAt_snoc_send_lt p srcs.length v (by omega)]
    rw [hpre]
    rfl
  · intro h0
    exact absurd rfl h0
  · intro j hj
    rw [inv.hdone j hj]
    simp [List.mem_append]

end RxZip

namespace RxZip

theorem inv_step_send_notfull {α β ε : Type} {f : List α → β} {srcs : List (List α)}
    {p : List (Ev α ε)} {st : ZipState α β ε} {P c : Nat}
    (inv : Inv f srcs p st P c) {i : Nat} {v : α} (hi : i < srcs.length)
    (hT1 : (Ev.close i : Ev α ε) ∉ p)
    (hfull : allFull (enqueue st.queues i v) = false) :
    ∃ c2, Inv f srcs (p ++ [Ev.send i v])
      (step (fun xs => (Except.ok (f xs) : Except ε β)) st (Ev.send i v)) P c2 := by
  have hsent_i : sent i (p ++ [(Ev.send i v : Ev α ε)]) = sent i p ++ [v] :=
    sent_snoc_send_self i v p
  have hsent_ne : ∀ j, j ≠ i → sent j (p ++ [(Ev.send i v : Ev α ε)]) = sent j p :=
    fun j hj => sent_snoc_send_ne (fun hh => hj hh.symm) v p
  have hEQ1 : enqueue st.queues i v = (List.range srcs.length).map
      fun j => (sent j (p ++ [(Ev.send i v : Ev α ε)])).drop P := by
    unfold enqueue
    rw [inv.hq, getD_map_range _ hi, set_map_range _ hi]
    apply map_range_congr
    intro j hj
    by_cases hji : j = i
    · subst hji
      rw [if_pos rfl, hsent_i, List.drop_append_of_le_length (inv.hle j hj)]
    · rw [if_neg hji, hsent_ne j hji]
  have hex_empty : ∃ j0, j0 < srcs.length ∧
      (sent j0 (p ++ [(Ev.send i v : Ev α ε)])).drop P = [] := by
    rw [hEQ1] at hfull
    obtain ⟨x, hxmem, hxfalse⟩ := exists_of_all_eq_false hfull
    obtain ⟨j0, hj0r, hx⟩ := List.mem_map.mp hxmem
    refine ⟨j0, List.mem_range.mp hj0r, ?_⟩
    have hxe : x.isEmpty = true := by
      cases hxi : x.isEmpty
      · rw [hxi] at hxfalse
        exact Bool.noConfusion hxfalse
      · rfl
    rw [← hx] at hxe
    exact List.isEmpty_iff.mp hxe
  obtain ⟨j0, hj0, hj0e⟩ := hex_empty
  have hj0i : j0 ≠ i := by
    intro hji
    subst hji
    rw [hsent_i, List.drop_append_of_le_length (inv.hle j0 hj0)] at hj0e
    simp at hj0e
  have hj0len : P = (sent j0 (p ++ [(Ev.send i v : Ev α ε)])).length := by
    have h1 : (sent j0 (p ++ [(Ev.send i v : Ev α ε)])).length ≤ P :=
      List.drop_eq_nil_iff.mp hj0e
    have h2 := inv.hle j0 hj0
    rw [hsent_ne j0 hj0i] at h1 ⊢
    omega
  have hpre : (List.range P).map
        (fun k => f (tupleAt (p ++ [(Ev.send i v : Ev α ε)]) srcs.length k))
      = (List.range P).map fun k => f (tupleAt p srcs.length k) := by
    apply map_range_congr
    intro k hk
    have := inv.hle i hi
    rw [tupleAt_snoc_send_lt p srcs.length v (by omega)]
  have hle2 : ∀ j, j < srcs.length →
      P ≤ (sent j (p ++ [(Ev.send i v : Ev α ε)])).length := by
    intro j hj
    by_cases hji : j = i
    · subst hji
      rw [hsent_i, List.length_append, List.length_singleton]
      have := inv.hle j hj
      omega
    · rw [hsent_ne j hji]
      exact inv.hle j hj
  have hdone2 : ∀ j, j < srcs.length →
      (st.is_done.getD j false = true ↔ (Ev.close j : Ev α ε) ∈ p ++ [Ev.send i v]) := by
    intro j hj
    rw [inv.hdone j hj]
    simp [List.mem_append]
  rw [step_send_notfull (fun xs => (Except.ok (f xs) : Except ε β)) i v st hfull]
  by_cases hOD : othersDone i st.is_done = true
  · refine ⟨c + 1, ?_, ?_, ?_, ?_, ?_, ?_, ?_⟩
    · exact hEQ1
    · exact inv.hdlen
    · exact hle2
    · exact ⟨j0, hj0, hj0len⟩
    · show st.output ++ _ = _
      rw [if_pos hOD, inv.hout, hpre, List.replicate_succ', ← List.append_assoc]
    · intro _
      refine ⟨j0, hj0, ?_, hj0len⟩
      have hg : st.is_done.getD j0 false = true :=
        othersDone_getD hOD (by rw [inv.hdlen]; exact hj0) hj0i
      exact List.mem_append_left _ ((inv.hdone j0 hj0).mp hg)
    · exact hdone2
  · refine ⟨c, ?_, ?_, ?_, ?_, ?_, ?_, ?_⟩
    · exact hEQ1
    · exact inv.hdlen
    · exact hle2
    · exact ⟨j0, hj0, hj0len⟩
    · show st.output ++ _ = _
      rw [if_neg hOD, List.append_nil, inv.hout, hpre]
    · intro hc
      obtain ⟨j, hj, hcl, hPj⟩ := inv.hcz hc
      by_cases hji : j = i
      · exact absurd (hji ▸ hcl) hT1
      · exact ⟨j, hj, List.mem_append_left _ hcl, by rw [hsent_ne j hji]; exact hPj⟩
    · exact hdone2

end RxZip

namespace RxZip

theorem run_inv {α β ε : Type} (f : List α → β) {srcs : List (List α)}
    {tr : List (Ev α ε)} (h : IsRun srcs tr) :
    ∀ (rest p : List (Ev α ε)) (st : ZipState α β ε) (P c : Nat),
      tr = p ++ rest → Inv f srcs p st P c →
      ∃ P2 c2, Inv f srcs tr
        (rest.foldl (step (fun xs => (Except.ok (f xs) : Except ε β))) st) P2 c2 := by
  intro rest
  induction rest with
  | nil =>
    intro p st P c htr inv
    rw [List.append_nil] at htr
    subst htr
    exact ⟨P, c, inv⟩
  | cons e rest ih =>
    intro p st P c htr inv
    have hmem_e : e ∈ tr := by
      rw [htr]
      exact List.mem_append_right _ (List.mem_cons_self _ _)
    have hidx : e.idx < srcs.length := h.1 e hmem_e
    have htr2 : tr = (p ++ [e]) ++ rest := by
      rw [htr, List.append_assoc, List.singleton_append]
    rw [List.foldl_cons]
    cases e with
    | send i v =>
      have hT1 : (Ev.close i : Ev α ε) ∉ p := isRun_close_not_before_send h htr
      by_cases hfull : allFull (enqueue st.queues i v) = true
      · exact ih (p ++ [Ev.send i v]) _ (P + 1) 0 htr2
          (inv_step_send_full inv hidx hT1 hfull)
      · have hfull2 : allFull (enqueue st.queues i v) = false := by
          cases hf2 : allFull (enqueue st.queues i v)
          · rfl
          · exact absurd hf2 hfull
        obtain ⟨c2, inv2⟩ := inv_step_send_notfull inv hidx hT1 hfull2
        exact ih (p ++ [Ev.send i v]) _ P c2 htr2 inv2
    | close i =>
      obtain ⟨c2, inv2⟩ := inv_step_close inv hidx
      exact ih (p ++ [Ev.close i]) _ P c2 htr2 inv2
    | throw i ex =>
      exact absurd hmem_e (isRun_no_throw h i ex)

end RxZip

/-- C1: for `N ≥ 1` sources delivering the value sequences `srcs` in any
interleaving and all completing normally without error, the subscriber
receives exactly `minLen srcs` values, the `k`-th being the combiner applied
to the list of the `k`-th values of the sources in source order. -/
theorem zip_nary_min_values {α β ε : Type} (f : List α → β) (srcs : List (List α))
    (tr : List (RxZip.Ev α ε)) (hn : 1 ≤ srcs.length) (h : RxZip.IsRun srcs tr) :
    RxZip.outputSends (RxZip.deliver
        (RxZip.run (fun xs => (Except.ok (f xs) : Except ε β)) srcs.length tr).output)
      = (List.range (RxZip.minLen srcs)).map fun k => f (srcs.filterMap fun s => s[k]?) := by
  obtain ⟨P, c, inv⟩ := RxZip.run_inv f h tr [] (RxZip.initState α β ε srcs.length) 0 0
    rfl (RxZip.inv_init f srcs hn)
  have hsent : ∀ j, j < srcs.length → RxZip.sent j tr = srcs.getD j [] :=
    fun j hj => RxZip.isRun_sent h hj
  have hP : P = RxZip.minLen srcs := by
    apply RxZip.minLen_char srcs P hn
    · intro j hj
      have := inv.hle j hj
      rw [hsent j hj] at this
      exact this
    · obtain ⟨j, hj, hPj⟩ := inv.hex
      exact ⟨j, hj, by rw [← hsent j hj]; exact hPj⟩
  have htuple : ∀ k, RxZip.tupleAt tr srcs.length k = srcs.filterMap fun s => s[k]? := by
    intro k
    unfold RxZip.tupleAt
    rw [show (List.range srcs.length).filterMap (fun j => (RxZip.sent j tr)[k]?)
        = (List.range srcs.length).filterMap fun j => (srcs.getD j [])[k]? from
      RxZip.filterMap_range_congr fun j hj => by rw [hsent j hj]]
    exact RxZip.filterMap_range_getD (fun s => s[k]?) srcs
  show RxZip.outputSends (RxZip.deliver
      (tr.foldl (RxZip.step fun xs => (Except.ok (f xs) : Except ε β))
        (RxZip.initState α β ε srcs.length)).output) = _
  rw [inv.hout]
  have hmaps : ((List.range P).map fun k => f (RxZip.tupleAt tr srcs.length k))
      = (List.range (RxZip.minLen srcs)).map fun k => f (srcs.filterMap fun s => s[k]?) := by
    rw [← hP]
    exact RxZip.map_range_congr fun k _ => by rw [htuple]
  cases c with
  | zero =>
    simp only [List.replicate_zero, List.append_nil]
    rw [RxZip.deliver_map_send, RxZip.outputSends_map_send]
    exact hmaps
  | succ c2 =>
    rw [List.replicate_succ,
      RxZip.deliver_append_of_no_terminal _ _ (RxZip.hasTerminal_map_send _)]
    rw [show RxZip.deliver (RxZip.DownEv.close :: List.replicate c2 RxZip.DownEv.close)
        = [(RxZip.DownEv.close : RxZip.DownEv β ε)] from rfl]
    rw [RxZip.outputSends_append, RxZip.outputSends_map_send]
    rw [show RxZip.outputSends ([RxZip.DownEv.close] : List (RxZip.DownEv β ε)) = []
        from rfl, List.append_nil]
    exact hmaps

theorem zip_nary_min_values_witness :
    1 ≤ ([[1, 2, 3], [10, 20]] : List (List Nat)).length ∧
      RxZip.IsRun ([[1, 2, 3], [10, 20]] : List (List Nat))
        ([RxZip.Ev.send 0 1, RxZip.Ev.send 1 10, RxZip.Ev.send 0 2, RxZip.Ev.send 1 20,
          RxZip.Ev.close 1, RxZip.Ev.send 0 3, RxZip.Ev.close 0] : List (RxZip.Ev Nat Nat)) ∧
      RxZip.outputSends (RxZip.deliver
          (RxZip.run (fun xs : List Nat => (Except.ok (xs.foldr (· + ·) 0) : Except Nat Nat)) 2
            [RxZip.Ev.send 0 1, RxZip.Ev.send 1 10, RxZip.Ev.send 0 2, RxZip.Ev.send 1 20,
              RxZip.Ev.close 1, RxZip.Ev.send 0 3, RxZip.Ev.close 0]).output)
        = (List.range (RxZip.minLen ([[1, 2, 3], [10, 20]] : List (List Nat)))).map
            fun k => (([[1, 2, 3], [10, 20]] : List (List Nat)).filterMap
              fun s => s[k]?).foldr (· + ·) 0 :=
  ⟨by decide, by decide,
    zip_nary_min_values (fun xs => xs.foldr (· + ·) 0) [[1, 2, 3], [10, 20]] _
      (by decide) (by decide)⟩
